import Mathlib

/-!
Verification of the subpicture (overlay) management core of
`src/video_output/vout_subpictures.c` against its natural-language
specification.  The C code is shallowly embedded: the fixed pool of
`subpicture_t` slots becomes a size-indexed function into a `Subpicture`
record, the lifecycle functions become pure state transformers that also
report their diagnostic warnings, and the RLE compositing inner loops
become explicit step functions on a cursor/write-log state.
-/

/-- Lifecycle status of a subpicture slot
(`FREE_SUBPICTURE`, `RESERVED_SUBPICTURE`, `READY_SUBPICTURE`,
`DESTROYED_SUBPICTURE` in the C source). -/
inductive SpuStatus where
  | free
  | reserved
  | ready
  | destroyed
deriving DecidableEq, Repr, Inhabited

/-- Payload kind of a subpicture (`TEXT_SUBPICTURE`, `DVD_SUBPICTURE`,
`EMPTY_SUBPICTURE`, plus a stand-in for any other integer value of
`i_type`). -/
inductive SpuType where
  | text
  | dvd
  | empty
  | unknown
deriving DecidableEq, Repr, Inhabited

/-- Shallow embedding of `subpicture_t`.  `p_data` is an abstract buffer
identifier (`none` models a NULL pointer); `i_size` is the byte capacity
recorded in the slot; times are `mtime_t` values modelled as `Int`. -/
structure Subpicture where
  i_status  : SpuStatus := .free
  i_type    : SpuType := .empty
  i_size    : Int := 0
  i_x       : Int := 0
  i_y       : Int := 0
  i_width   : Int := 0
  i_height  : Int := 0
  i_start   : Int := 0
  i_stop    : Int := 0
  b_ephemer : Bool := false
  p_data    : Option Nat := none
deriving DecidableEq, Repr, Inhabited

/-- The fixed-size subpicture heap `p_vout->p_subpicture`
(`VOUT_MAX_SUBPICTURES` slots).  Slots are addressed by index. -/
structure SpuPool where
  size  : Nat
  slots : Nat → Subpicture

/-- Write one slot of the pool. -/
def SpuPool.set (p : SpuPool) (i : Nat) (sp : Subpicture) : SpuPool :=
  ⟨p.size, fun j => if j = i then sp else p.slots j⟩

@[simp] theorem SpuPool.set_size (p : SpuPool) (i : Nat) (sp : Subpicture) :
    (p.set i sp).size = p.size := rfl

@[simp] theorem SpuPool.set_slots_self (p : SpuPool) (i : Nat) (sp : Subpicture) :
    (p.set i sp).slots i = sp := by simp [SpuPool.set]

theorem SpuPool.set_slots_other (p : SpuPool) (i : Nat) (sp : Subpicture)
    {j : Nat} (h : j ≠ i) : (p.set i sp).slots j = p.slots j := by
  simp [SpuPool.set, h]

/-- Result of `vout_DisplaySubPicture`: the updated slot plus whether the
status-integrity diagnostic (`intf_ErrMsg`) fired. -/
structure DisplayResult where
  subpic : Subpicture
  warned : Bool
deriving DecidableEq, Repr

/-- Embedding of `vout_DisplaySubPicture` (lines 50-77).  The margin comes
from `main_GetIntVariable(VOUT_SPUMARGIN_VAR, ...)` — external
configuration — so it is a parameter, as is the output height
`p_vout->output.i_height`. -/
def vout_DisplaySubPicture (outputHeight margin : Int) (sp : Subpicture) :
    DisplayResult :=
  let warned := if sp.i_status = SpuStatus.reserved then false else true
  let sp1 :=
    if 0 ≤ margin then
      if sp.i_height + margin ≤ outputHeight then
        { sp with i_y := outputHeight - margin - sp.i_height }
      else sp
    else sp
  { subpic := { sp1 with i_status := SpuStatus.ready }, warned := warned }

/-- Embedding of `vout_DestroySubPicture` (lines 197-208): sets the status
to destroyed unconditionally; second component is the diagnostic flag. -/
def vout_DestroySubPicture (sp : Subpicture) : Subpicture × Bool :=
  ({ sp with i_status := SpuStatus.destroyed },
   if sp.i_status = SpuStatus.reserved ∨ sp.i_status = SpuStatus.ready
   then false else true)

/-- Concrete subpicture used in the `margin = -1` scenario of C6: the
producer set `i_y = 77`. -/
def marginSample : Subpicture :=
  { i_status := .reserved, i_type := .dvd, i_height := 40, i_y := 77 }

/-- C6: `vout_DisplaySubPicture` sets `i_y` to
`outputHeight - margin - height` exactly when `margin ≥ 0` and the
subpicture fits (`height + margin ≤ outputHeight`), and leaves `i_y`
unchanged otherwise; with height 480, margin 20, overlay height 40 the
result is `i_y = 420`, and with margin `-1` the producer-set `i_y` is
kept. -/
theorem C6_margin_application :
    (∀ (h m : Int) (sp : Subpicture),
      (vout_DisplaySubPicture h m sp).subpic.i_y =
        if 0 ≤ m ∧ sp.i_height + m ≤ h then h - m - sp.i_height else sp.i_y) ∧
    (vout_DisplaySubPicture 480 20 marginSample).subpic.i_y = 420 ∧
    (vout_DisplaySubPicture 480 (-1) marginSample).subpic.i_y = 77 := by
  refine ⟨fun h m sp => ?_, by decide, by decide⟩
  by_cases h1 : 0 ≤ m <;> by_cases h2 : sp.i_height + m ≤ h <;>
    simp [vout_DisplaySubPicture, h1, h2]

/-- C9: invalid state transitions are diagnostic-only.
`vout_DisplaySubPicture` produces status `ready` whatever the entry
status was, and its whole result record does not depend on the entry
status; `vout_DestroySubPicture` produces status `destroyed` whatever the
entry status was, changing nothing but the status; in both functions the
only thing the status check influences is the warning flag, which fires
exactly on an unexpected entry status. -/
theorem C9_transitions_diagnostic_only :
    ∀ (h m : Int) (sp : Subpicture) (s s' : SpuStatus),
      (vout_DisplaySubPicture h m sp).subpic.i_status = SpuStatus.ready ∧
      ((vout_DisplaySubPicture h m { sp with i_status := s }).subpic =
       (vout_DisplaySubPicture h m { sp with i_status := s' }).subpic) ∧
      ((vout_DisplaySubPicture h m sp).warned = true ↔
        sp.i_status ≠ SpuStatus.reserved) ∧
      (vout_DestroySubPicture sp).1 = { sp with i_status := SpuStatus.destroyed } ∧
      ((vout_DestroySubPicture sp).2 = true ↔
        (sp.i_status ≠ SpuStatus.reserved ∧ sp.i_status ≠ SpuStatus.ready)) := by
  intro h m sp s s'
  refine ⟨rfl, ?_, ?_, rfl, ?_⟩
  · by_cases h1 : (0:Int) ≤ m <;> by_cases h2 : sp.i_height + m ≤ h <;>
      simp [vout_DisplaySubPicture, h1, h2]
  · by_cases hs : sp.i_status = SpuStatus.reserved <;>
      simp [vout_DisplaySubPicture, hs]
  · by_cases h1 : sp.i_status = SpuStatus.reserved <;>
      by_cases h2 : sp.i_status = SpuStatus.ready <;>
      simp [vout_DestroySubPicture, h1, h2]

/-- Outcome of `vout_CreateSubPicture`: either the index of the reserved
slot, or one of the two failure modes (both returned as NULL in C, but
reaching distinct code paths). -/
inductive CreateOutcome where
  | ok (i : Nat)
  | poolFull
  | allocationFailed
deriving DecidableEq, Repr

/-- Result of `vout_CreateSubPicture`: the updated pool, the outcome, and
whether `memalign` respectively `free` were invoked during the call. -/
structure CreateResult where
  pool : SpuPool
  outcome : CreateOutcome
  didAlloc : Bool
  didFree : Bool

/-- Result of the slot-scanning loop of `vout_CreateSubPicture`
(lines 100-129): either an early return with a matching destroyed slot,
or the loop ran to completion remembering the first free and the first
(non-matching) destroyed slot. -/
inductive CreateScanResult where
  | fast (i : Nat)
  | done (freeIdx : Option Nat) (destroyedIdx : Option Nat)
deriving DecidableEq, Repr

/-- The scanning loop of `vout_CreateSubPicture` over a list of slot
indices, carrying the `p_free_subpic` and `p_destroyed_subpic`
accumulators. -/
def createScanGo (p : SpuPool) (ty : SpuType) (sz : Int) :
    List Nat → Option Nat → Option Nat → CreateScanResult
  | [], f, dI => .done f dI
  | i :: rest, f, dI =>
    let sp := p.slots i
    if sp.i_status = SpuStatus.destroyed then
      if sp.i_type = ty ∧ sz ≤ sp.i_size then .fast i
      else createScanGo p ty sz rest f (if dI = none then some i else dI)
    else if f = none ∧ sp.i_status = SpuStatus.free then
      createScanGo p ty sz rest (some i) dI
    else
      createScanGo p ty sz rest f dI

/-- Preparation of a chosen slot (lines 148-182): `memalign` for text/DVD
subpictures (success is the oracle `memOk`; the fresh buffer is the
abstract id `newBuf`), NULL for an unknown type; on success the slot
fields are reset, on failure the slot is marked free/empty.  `fr` records
whether the old payload of a repurposed destroyed slot was freed
(line 136). -/
def spuSlowPath (p : SpuPool) (ty : SpuType) (sz : Int) (memOk : Bool)
    (newBuf : Nat) (i : Nat) (fr : Bool) : CreateResult :=
  if (ty = SpuType.text ∨ ty = SpuType.dvd) ∧ memOk = true then
    { pool := p.set i { p.slots i with
        i_type := ty, i_status := SpuStatus.reserved, i_size := sz,
        i_x := 0, i_y := 0, i_width := 0, i_height := 0,
        p_data := some newBuf },
      outcome := .ok i, didAlloc := true, didFree := fr }
  else
    { pool := p.set i { p.slots i with
        i_type := SpuType.empty, i_status := SpuStatus.free, p_data := none },
      outcome := .allocationFailed,
      didAlloc := decide (ty = SpuType.text ∨ ty = SpuType.dvd),
      didFree := fr }

/-- Embedding of `vout_CreateSubPicture` (lines 87-187).  A destroyed
slot of matching type and sufficient capacity is reserved and returned
immediately; otherwise the first free slot is used, else the first
destroyed slot after freeing its payload, else the heap is full. -/
def vout_CreateSubPicture (p : SpuPool) (ty : SpuType) (sz : Int)
    (memOk : Bool) (newBuf : Nat) : CreateResult :=
  match createScanGo p ty sz (List.range p.size) none none with
  | .fast i =>
      { pool := p.set i { p.slots i with i_status := SpuStatus.reserved },
        outcome := .ok i, didAlloc := false, didFree := false }
  | .done (some f) _ => spuSlowPath p ty sz memOk newBuf f false
  | .done none (some dI) => spuSlowPath p ty sz memOk newBuf dI true
  | .done none none =>
      { pool := p, outcome := .poolFull, didAlloc := false, didFree := false }

/-- A slot eligible for the fast-reuse path of `vout_CreateSubPicture`:
destroyed, same type, and a recorded capacity at least the requested
size. -/
def fastPred (ty : SpuType) (sz : Int) (sp : Subpicture) : Prop :=
  sp.i_status = SpuStatus.destroyed ∧ sp.i_type = ty ∧ sz ≤ sp.i_size

instance (ty : SpuType) (sz : Int) (sp : Subpicture) :
    Decidable (fastPred ty sz sp) := by
  unfold fastPred; infer_instance

theorem createScanGo_fast_first (p : SpuPool) (ty : SpuType) (sz : Int) :
    ∀ (k s : Nat) (f dI : Option Nat) (i : Nat), s ≤ i → i < s + k →
      fastPred ty sz (p.slots i) →
      (∀ j, s ≤ j → j < i → ¬ fastPred ty sz (p.slots j)) →
      createScanGo p ty sz (List.range' s k) f dI = .fast i := by
  intro k
  induction k with
  | zero => intro s f dI i h1 h2 _ _; omega
  | succ k ih =>
    intro s f dI i h1 h2 hfast hmin
    rcases Nat.eq_or_lt_of_le h1 with rfl | hlt
    · obtain ⟨hst, hty, hsz⟩ := hfast
      simp [List.range', createScanGo, hst, hty, hsz]
    · have hs : ¬ fastPred ty sz (p.slots s) := hmin s le_rfl hlt
      have hrec := ih (s + 1) ?f ?d i hlt (by omega) hfast
        (fun j hj1 hj2 => hmin j (by omega) hj2)
      case f => exact if (f = none ∧ (p.slots s).i_status = SpuStatus.free)
                  then some s else f
      case d => exact if (p.slots s).i_status = SpuStatus.destroyed then
                  (if dI = none then some s else dI) else dI
      by_cases hst : (p.slots s).i_status = SpuStatus.destroyed
      · have hnm : ¬ ((p.slots s).i_type = ty ∧ sz ≤ (p.slots s).i_size) := by
          intro hc; exact hs ⟨hst, hc.1, hc.2⟩
        simp only [List.range', createScanGo, hst, if_true, hnm, if_false,
          if_neg hnm]
        have := ih (s + 1) f (if dI = none then some s else dI) i hlt (by omega)
          hfast (fun j hj1 hj2 => hmin j (by omega) hj2)
        simpa [hst] using this
      · by_cases hfr : f = none ∧ (p.slots s).i_status = SpuStatus.free
        · simp only [List.range', createScanGo, hst, if_false]
          have := ih (s + 1) (some s) dI i hlt (by omega) hfast
            (fun j hj1 hj2 => hmin j (by omega) hj2)
          simpa [hst, hfr] using this
        · simp only [List.range', createScanGo]
          have := ih (s + 1) f dI i hlt (by omega) hfast
            (fun j hj1 hj2 => hmin j (by omega) hj2)
          simpa [hst, hfr] using this

theorem createScanGo_done_mono (p : SpuPool) (ty : SpuType) (sz : Int) :
    ∀ (l : List Nat) (f dI f' d' : Option Nat),
      createScanGo p ty sz l f dI = .done f' d' →
      (f' = none → f = none) ∧ (d' = none → dI = none) := by
  intro l
  induction l with
  | nil =>
    intro f dI f' d' h
    simp [createScanGo] at h
    exact ⟨fun h' => h.1 ▸ h', fun h' => h.2 ▸ h'⟩
  | cons i rest ih =>
    intro f dI f' d' h
    by_cases hst : (p.slots i).i_status = SpuStatus.destroyed
    · by_cases hm : (p.slots i).i_type = ty ∧ sz ≤ (p.slots i).i_size
      · simp [createScanGo, hst, hm] at h
      · simp only [createScanGo, hst, if_true, hm, if_false, if_neg hm] at h
        have := ih f (if dI = none then some i else dI) f' d' (by simpa [hst] using h)
        refine ⟨this.1, fun h' => ?_⟩
        have := this.2 h'
        by_cases hd : dI = none
        · simp [hd] at this
        · rw [if_neg hd] at this
          exact this
    · by_cases hfr : f = none ∧ (p.slots i).i_status = SpuStatus.free
      · have := ih (some i) dI f' d' (by simpa [createScanGo, hst, hfr] using h)
        refine ⟨fun h' => ?_, this.2⟩
        have := this.1 h'
        simp at this
      · have := ih f dI f' d' (by simpa [createScanGo, hst, hfr] using h)
        exact this

theorem createScanGo_done_none (p : SpuPool) (ty : SpuType) (sz : Int) :
    ∀ (l : List Nat) (f dI : Option Nat),
      createScanGo p ty sz l f dI = .done none none →
      ∀ i ∈ l, (p.slots i).i_status ≠ SpuStatus.free ∧
               (p.slots i).i_status ≠ SpuStatus.destroyed := by
  intro l
  induction l with
  | nil => intro f dI _ i hi; simp at hi
  | cons j rest ih =>
    intro f dI h i hi
    by_cases hst : (p.slots j).i_status = SpuStatus.destroyed
    · by_cases hm : (p.slots j).i_type = ty ∧ sz ≤ (p.slots j).i_size
      · simp [createScanGo, hst, hm] at h
      · exfalso
        have h' : createScanGo p ty sz rest f (if dI = none then some j else dI)
            = .done none none := by
          simpa [createScanGo, hst, hm] using h
        have := (createScanGo_done_mono p ty sz rest f _ none none h').2 rfl
        by_cases hd : dI = none <;> simp [hd] at this
    · by_cases hfr : f = none ∧ (p.slots j).i_status = SpuStatus.free
      · exfalso
        have h' : createScanGo p ty sz rest (some j) dI = .done none none := by
          simpa [createScanGo, hst, hfr] using h
        have := (createScanGo_done_mono p ty sz rest _ dI none none h').1 rfl
        simp at this
      · have h' : createScanGo p ty sz rest f dI = .done none none := by
          simpa [createScanGo, hst, hfr] using h
        rcases List.mem_cons.mp hi with rfl | hmem
        · refine ⟨fun hf => ?_, hst⟩
          by_cases hfn : f = none
          · exact hfr ⟨hfn, hf⟩
          · obtain ⟨fv, hfv⟩ := Option.ne_none_iff_exists'.mp hfn
            have := (createScanGo_done_mono p ty sz rest f dI none none h').1 rfl
            simp [hfv] at this
        · exact ih f dI h' i hmem

theorem createScanGo_of_no_candidate (p : SpuPool) (ty : SpuType) (sz : Int) :
    ∀ (l : List Nat) (f dI : Option Nat),
      (∀ i ∈ l, (p.slots i).i_status ≠ SpuStatus.free ∧
                (p.slots i).i_status ≠ SpuStatus.destroyed) →
      createScanGo p ty sz l f dI = .done f dI := by
  intro l
  induction l with
  | nil => intro f dI _; simp [createScanGo]
  | cons j rest ih =>
    intro f dI h
    have hj := h j (List.mem_cons_self j rest)
    have hrest : ∀ i ∈ rest, (p.slots i).i_status ≠ SpuStatus.free ∧
        (p.slots i).i_status ≠ SpuStatus.destroyed :=
      fun i hi => h i (List.mem_cons_of_mem j hi)
    have hnf : ¬ (f = none ∧ (p.slots j).i_status = SpuStatus.free) := by
      intro hc; exact hj.1 hc.2
    simp only [createScanGo, if_neg hj.2, if_neg hnf]
    exact ih f dI hrest

/-- C4: if some slot is destroyed with matching kind and capacity at
least the requested size, then `vout_CreateSubPicture` returns the first
such slot in scan order immediately: it becomes reserved, no `memalign`
or `free` is performed, the rest of the slot (including its payload
buffer and recorded capacity) is untouched, and all other slots are left
alone. -/
theorem C4_fast_reuse (p : SpuPool) (ty : SpuType) (sz : Int)
    (memOk : Bool) (newBuf : Nat) (i : Nat)
    (hi : i < p.size) (hfast : fastPred ty sz (p.slots i))
    (hfirst : ∀ j, j < i → ¬ fastPred ty sz (p.slots j)) :
    (vout_CreateSubPicture p ty sz memOk newBuf).outcome = .ok i ∧
    (vout_CreateSubPicture p ty sz memOk newBuf).didAlloc = false ∧
    (vout_CreateSubPicture p ty sz memOk newBuf).didFree = false ∧
    (vout_CreateSubPicture p ty sz memOk newBuf).pool.slots i =
      { p.slots i with i_status := SpuStatus.reserved } ∧
    (∀ j, j ≠ i → (vout_CreateSubPicture p ty sz memOk newBuf).pool.slots j =
      p.slots j) := by
  have hscan : createScanGo p ty sz (List.range p.size) none none = .fast i := by
    rw [List.range_eq_range']
    exact createScanGo_fast_first p ty sz p.size 0 none none i (Nat.zero_le i)
      (by omega) hfast (fun j _ hj => hfirst j hj)
  unfold vout_CreateSubPicture
  rw [hscan]
  refine ⟨rfl, rfl, rfl, by simp, fun j hj => SpuPool.set_slots_other _ _ _ hj⟩

/-- Concrete pool for the C4 witness: slot 0 is free, slot 1 is a
destroyed DVD slot with capacity 100. -/
def c4pool : SpuPool :=
  ⟨2, fun j => match j with
    | 0 => { i_status := .free }
    | 1 => { i_status := .destroyed, i_type := .dvd, i_size := 100,
             i_x := 3, i_y := 4, i_width := 5, i_height := 6,
             p_data := some 42 }
    | _ => default⟩

/-- Witness for C4 at a concrete pool: requesting a DVD subpicture of
size 50 reuses destroyed slot 1 without allocating or freeing. -/
theorem C4_fast_reuse_witness :
    (vout_CreateSubPicture c4pool SpuType.dvd 50 true 7).outcome = .ok 1 ∧
    (vout_CreateSubPicture c4pool SpuType.dvd 50 true 7).didAlloc = false ∧
    (vout_CreateSubPicture c4pool SpuType.dvd 50 true 7).pool.slots 1 =
      { c4pool.slots 1 with i_status := SpuStatus.reserved } := by
  have h := C4_fast_reuse c4pool SpuType.dvd 50 true 7 1 (by decide)
    (by decide) (by decide)
  exact ⟨h.1, h.2.1, h.2.2.2.1⟩

theorem spuSlowPath_outcome (p : SpuPool) (ty : SpuType) (sz : Int)
    (memOk : Bool) (newBuf : Nat) (i : Nat) (fr : Bool) :
    (spuSlowPath p ty sz memOk newBuf i fr).outcome ≠ .poolFull := by
  unfold spuSlowPath
  split <;> simp

/-- C5: `vout_CreateSubPicture` fails with pool-full exactly when no slot
of the pool is free and no slot is destroyed; whenever some free or some
destroyed slot exists the call does not report a full heap. -/
theorem C5_pool_full_iff (p : SpuPool) (ty : SpuType) (sz : Int)
    (memOk : Bool) (newBuf : Nat) :
    (vout_CreateSubPicture p ty sz memOk newBuf).outcome = .poolFull ↔
    (∀ j, j < p.size → (p.slots j).i_status ≠ SpuStatus.free ∧
      (p.slots j).i_status ≠ SpuStatus.destroyed) := by
  constructor
  · intro h j hj
    cases hscan : createScanGo p ty sz (List.range p.size) none none with
    | fast i =>
      exfalso
      unfold vout_CreateSubPicture at h
      rw [hscan] at h
      simp at h
    | done f dI =>
      unfold vout_CreateSubPicture at h
      rw [hscan] at h
      match f, dI with
      | some fv, _ => exact absurd h (spuSlowPath_outcome _ _ _ _ _ _ _)
      | none, some dv => exact absurd h (spuSlowPath_outcome _ _ _ _ _ _ _)
      | none, none =>
        exact createScanGo_done_none p ty sz (List.range p.size) none none
          hscan j (List.mem_range.mpr hj)
  · intro h
    have hscan : createScanGo p ty sz (List.range p.size) none none =
        .done none none :=
      createScanGo_of_no_candidate p ty sz (List.range p.size) none none
        (fun i hi => h i (List.mem_range.mp hi))
    unfold vout_CreateSubPicture
    rw [hscan]

/-- C10: on the fast-reuse path (success without `memalign`) the only
field `vout_CreateSubPicture` changes in the returned slot is the status,
so position, extent, recorded capacity, kind and payload keep their old
values; on the (re)allocation path (success with `memalign`) position and
extent are reset to 0, the capacity becomes the requested size, and the
payload is the freshly allocated buffer. -/
theorem C10_field_effects (p : SpuPool) (ty : SpuType) (sz : Int)
    (memOk : Bool) (newBuf : Nat) (i : Nat) :
    ((vout_CreateSubPicture p ty sz memOk newBuf).outcome = .ok i →
     (vout_CreateSubPicture p ty sz memOk newBuf).didAlloc = false →
     (vout_CreateSubPicture p ty sz memOk newBuf).pool.slots i =
       { p.slots i with i_status := SpuStatus.reserved }) ∧
    ((vout_CreateSubPicture p ty sz memOk newBuf).outcome = .ok i →
     (vout_CreateSubPicture p ty sz memOk newBuf).didAlloc = true →
     (vout_CreateSubPicture p ty sz memOk newBuf).pool.slots i =
       { p.slots i with
         i_type := ty, i_status := SpuStatus.reserved, i_size := sz,
         i_x := 0, i_y := 0, i_width := 0, i_height := 0,
         p_data := some newBuf }) := by
  have hslow : ∀ (k : Nat) (fr : Bool),
      ((spuSlowPath p ty sz memOk newBuf k fr).outcome = .ok i →
       (spuSlowPath p ty sz memOk newBuf k fr).didAlloc = false →
       (spuSlowPath p ty sz memOk newBuf k fr).pool.slots i =
         { p.slots i with i_status := SpuStatus.reserved }) ∧
      ((spuSlowPath p ty sz memOk newBuf k fr).outcome = .ok i →
       (spuSlowPath p ty sz memOk newBuf k fr).didAlloc = true →
       (spuSlowPath p ty sz memOk newBuf k fr).pool.slots i =
         { p.slots i with
           i_type := ty, i_status := SpuStatus.reserved, i_size := sz,
           i_x := 0, i_y := 0, i_width := 0, i_height := 0,
           p_data := some newBuf }) := by
    intro k fr
    by_cases hc : (ty = SpuType.text ∨ ty = SpuType.dvd) ∧ memOk = true
    · refine ⟨fun hok hda => ?_, fun hok _ => ?_⟩
      · simp [spuSlowPath, hc] at hda
      · simp only [spuSlowPath, if_pos hc] at hok ⊢
        simp only [CreateOutcome.ok.injEq] at hok
        subst hok
        simp
    · refine ⟨fun hok _ => ?_, fun hok _ => ?_⟩ <;>
        simp [spuSlowPath, hc] at hok
  unfold vout_CreateSubPicture
  cases hscan : createScanGo p ty sz (List.range p.size) none none with
  | fast j =>
    constructor
    · intro hok _
      simp only [CreateOutcome.ok.injEq] at hok
      subst hok
      simp
    · intro _ hda
      simp at hda
  | done f dI =>
    rcases f with _ | fv
    · rcases dI with _ | dv
      · constructor <;> intro hok <;> simp at hok
      · exact hslow dv true
    · exact hslow fv false

/-- Concrete pool for the C10 witness: slot 0 is free (so a request that
matches nothing destroyed goes through fresh allocation), slot 1 is a
destroyed DVD slot with capacity 64 and producer-set geometry. -/
def c10pool : SpuPool :=
  ⟨2, fun j => match j with
    | 0 => { i_status := .free }
    | 1 => { i_status := .destroyed, i_type := .dvd, i_size := 64,
             i_x := 11, i_y := 12, i_width := 13, i_height := 14,
             i_start := 15, i_stop := 16, p_data := some 99 }
    | _ => default⟩

/-- Witness for C10 at concrete pools: reusing destroyed slot 1 for a
DVD request of size 10 keeps every field but the status (capacity stays
64, payload stays buffer 99), while a text request of size 10 (matching
no destroyed slot) allocates into free slot 0 and resets geometry. -/
theorem C10_field_effects_witness :
    (vout_CreateSubPicture c10pool SpuType.dvd 10 true 7).pool.slots 1 =
      { c10pool.slots 1 with i_status := SpuStatus.reserved } ∧
    (vout_CreateSubPicture c10pool SpuType.text 10 true 7).pool.slots 0 =
      { c10pool.slots 0 with
        i_type := SpuType.text, i_status := SpuStatus.reserved, i_size := 10,
        i_x := 0, i_y := 0, i_width := 0, i_height := 0,
        p_data := some 7 } := by
  constructor
  · exact (C10_field_effects c10pool SpuType.dvd 10 true 7 1).1
      (by decide) (by decide)
  · exact (C10_field_effects c10pool SpuType.text 10 true 7 0).2
      (by decide) (by decide)

/-- Transparency palette of `vout_RenderSPU` (line 406): colour 0 is
fully transparent, colours 1..3 fully opaque. -/
def p_trsp (i : Nat) : Nat :=
  match i with
  | 0 => 0x00
  | _ => 0xff

/-- 8-bit colour lookup table of the I420 path (lines 416-417). -/
def p_clut8 (i : Nat) : Nat :=
  match i with
  | 0 => 0xaa
  | 1 => 0x44
  | 2 => 0xff
  | _ => 0x88

/-- 16-bit colour lookup table of the RV16 path (lines 461-462). -/
def p_clut16 (i : Nat) : Nat :=
  match i with
  | 0 => 0xaaaa
  | 1 => 0x4444
  | 2 => 0xffff
  | _ => 0x8888

/-- State of the RLE drawing loops of `vout_RenderSPU`: the horizontal
cursor `i_x` and the log of `memset` calls performed so far, each
recorded as (byte offset relative to `p_dest`, fill value, byte
count). -/
structure SpuDraw where
  xCursor : Int
  writes  : List (Int × Nat × Nat)
deriving DecidableEq, Repr

/-- One iteration of the inner loop of the unscaled I420 path of
`vout_RenderSPU` (lines 428-452): read the 16-bit codeword `c`, take the
colour from bits 0-1, and either skip (transparent) or `memset` a run of
`c >> 2` palette bytes.  `yOff` is the current `i_y` row offset. -/
def spuStepI420 (yOff : Int) (st : SpuDraw) (c : Nat) : SpuDraw :=
  let i_color := c &&& 0x3
  if p_trsp i_color = 0x00 then
    { st with xCursor := st.xCursor - ((c >>> 2 : Nat) : Int) }
  else
    let i_len : Nat := c >>> 2
    { xCursor := st.xCursor - (i_len : Int),
      writes := (0 - st.xCursor - yOff, p_clut8 i_color, i_len) :: st.writes }

/-- Horizontal scale factor of the RV16 path (line 464):
`(output.i_width << 6) / render.i_width`, a fixed-point value with 6
fractional bits. -/
def spuXScale (outputWidth renderWidth : Nat) : Nat :=
  (outputWidth <<< 6) / renderWidth

/-- One iteration of the single-destination-line inner loop of the
scaled RV16 path of `vout_RenderSPU` (lines 488-517): the decoded run
length is scaled by `i_xscale`, and an opaque run fills
`2 * ((i_len >> 6) + 1)` bytes at `p_dest - 2*(i_x >> 6) + i_yreal`. -/
def spuStepRV16 (i_xscale : Nat) (i_yreal : Int) (st : SpuDraw) (c : Nat) :
    SpuDraw :=
  let i_color := c &&& 0x3
  if p_trsp i_color = 0x00 then
    { st with xCursor := st.xCursor - ((i_xscale * (c >>> 2) : Nat) : Int) }
  else
    let i_len : Nat := i_xscale * (c >>> 2)
    { xCursor := st.xCursor - (i_len : Int),
      writes := (0 - 2 * (st.xCursor / 64) + i_yreal, p_clut16 i_color,
                 2 * ((i_len >>> 6) + 1)) :: st.writes }

theorem spu_codeword_fields (c : Nat) :
    (c &&& 0x3) = c % 4 ∧ (c >>> 2) = c / 4 := by
  constructor
  · have h := Nat.and_pow_two_sub_one_eq_mod c 2
    norm_num at h
    exact h
  · rw [Nat.shiftRight_eq_div_pow]

/-- C7: in the compositor each 16-bit RLE codeword `c` decodes as colour
index `c & 0x3 = c mod 4` and run length `c >> 2 = c div 4`; a codeword
of colour 0 is fully transparent — the I420 drawing step only moves the
horizontal cursor forward by the run length and appends no `memset` to
the write log. -/
theorem C7_rle_codeword (c : Nat) (_hc : c < 65536) :
    (c &&& 0x3) = c % 4 ∧ (c >>> 2) = c / 4 ∧
    ∀ (yOff : Int) (st : SpuDraw), c % 4 = 0 →
      spuStepI420 yOff st c =
        { st with xCursor := st.xCursor - ((c / 4 : Nat) : Int) } := by
  obtain ⟨h1, h2⟩ := spu_codeword_fields c
  refine ⟨h1, h2, fun yOff st hc0 => ?_⟩
  have hcol : c &&& 0x3 = 0 := by rw [h1]; exact hc0
  rw [spuStepI420]
  simp only [hcol, h2]
  rfl

/-- Witness for C7 at the codeword `(10 << 2) | 0 = 40` (run 10 of
colour 0) from cursor position 64: the step only advances the cursor. -/
theorem C7_rle_codeword_witness :
    (40 &&& 0x3) = 40 % 4 ∧
    spuStepI420 0 ⟨64, []⟩ 40 = ⟨54, []⟩ := by
  have h := C7_rle_codeword 40 (by norm_num)
  exact ⟨h.1, by rw [h.2.2 0 ⟨64, []⟩ (by norm_num)]; decide⟩

/-- Concrete codeword for the C8 scenario: run length 10, colour 1,
encoded as `(10 << 2) | 1 = 41`. -/
def c8codeword : Nat := 41

/-- Counterexample to C8 as stated: with `renderWidth = 720` and
`outputWidth = 360` the scale factor is indeed 32, but applying it to a
decoded run of length 10 makes the RV16 inner loop `memset`
`2*((320 >> 6) + 1) = 12` bytes, i.e. 6 destination pixels — not the 5
pixels the claim derives from the `+1` rounding-up rule. -/
theorem C8_counterexample :
    spuXScale 360 720 = 32 ∧
    (spuStepRV16 32 0 ⟨640, []⟩ c8codeword).writes = [(-20, 0x4444, 12)] ∧
    (12 : Nat) ≠ 2 * 5 := by
  refine ⟨by decide, by decide, by decide⟩

/-- C8 (amended): the horizontal scale factor of the scaled RV16 path is
the 6-fractional-bit fixed-point value `(outputWidth << 6)/renderWidth`,
equal to 32 for `outputWidth = 360, renderWidth = 720`; an opaque run of
source length `L` advances the destination cursor by `i_xscale * L`
fixed-point units (5 whole pixels for `L = 10` at scale 32) but its
`memset` covers `(i_xscale * L >> 6) + 1` destination pixels — the `+1`
is applied unconditionally, so the run of 10 fills 6 destination pixels,
not 5. -/
theorem C8_scaling (outputWidth renderWidth : Nat) (xs : Nat) (yr : Int)
    (st : SpuDraw) (c : Nat) (hcol : c % 4 = 1) :
    spuXScale outputWidth renderWidth = outputWidth * 2 ^ 6 / renderWidth ∧
    spuXScale 360 720 = 32 ∧
    (spuStepRV16 xs yr st c).xCursor =
      st.xCursor - ((xs * (c / 4) : Nat) : Int) ∧
    (spuStepRV16 xs yr st c).writes =
      (0 - 2 * (st.xCursor / 64) + yr, p_clut16 1,
        2 * (xs * (c / 4) / 2 ^ 6 + 1)) :: st.writes ∧
    32 * 10 / 2 ^ 6 + 1 = 6 := by
  have h1 : c &&& 0x3 = 1 := by
    rw [(spu_codeword_fields c).1]; exact hcol
  have h2 : (c >>> 2) = c / 4 := (spu_codeword_fields c).2
  have h3 : ∀ n : Nat, n >>> 6 = n / 2 ^ 6 := fun n => Nat.shiftRight_eq_div_pow n 6
  refine ⟨?_, by decide, ?_, ?_, by norm_num⟩
  · rw [spuXScale, Nat.shiftLeft_eq]
  · rw [spuStepRV16]
    simp only [h1, h2]
    rfl
  · rw [spuStepRV16]
    simp only [h1, h2, h3]
    rfl

/-- Witness for C8 (amended) at the concrete scenario: scale 32, run 10
from cursor 640 — the cursor advances by 320 (5 whole pixels) and the
`memset` covers 12 bytes = 6 pixels. -/
theorem C8_scaling_witness :
    (spuStepRV16 32 0 ⟨640, []⟩ c8codeword).xCursor = 320 ∧
    (spuStepRV16 32 0 ⟨640, []⟩ c8codeword).writes =
      [(-20, 0x4444, 2 * 6)] := by
  have h := C8_scaling 360 720 32 0 ⟨640, []⟩ c8codeword (by decide)
  refine ⟨?_, ?_⟩
  · rw [h.2.2.1]; decide
  · rw [h.2.2.2.1]; decide

/-- State threaded through the scan loop of `vout_SortSubPictures`
(lines 283-360): the pool (whose slots may get destroyed on the way),
the chained result list `p_subpic` as a head-first list of slot indices,
the ephemer candidate `p_ephemer` as a slot index, and `ephemer_date`. -/
structure SortState where
  pool : SpuPool
  subpicList : List Nat
  ephemer : Option Nat
  ephemerDate : Int

/-- Linking a DVD subpicture into the result chain together with the
`ephemer_date` bookkeeping (lines 345-351): the date is (re)set whenever
it is still zero or larger than the linked subpicture's start date. -/
def spuLink (st : SortState) (i : Nat) (sp : Subpicture) : SortState :=
  { st with subpicList := i :: st.subpicList,
            ephemerDate :=
              if st.ephemerDate = 0 ∨ sp.i_start < st.ephemerDate
              then sp.i_start else st.ephemerDate }

/-- One iteration (one slot index) of the scan loop of
`vout_SortSubPictures` (lines 293-360): only ready slots are looked at;
DVD subpictures are destroyed when expired, skipped when premature, and
otherwise either tracked as the ephemer candidate (replacing — and
linking — the previous candidate when the new start date is strictly
smaller) or linked; non-DVD subpictures are always linked. -/
def sortStep (d : Int) (st : SortState) (i : Nat) : SortState :=
  let sp := st.pool.slots i
  if sp.i_status = SpuStatus.ready then
    if sp.i_type = SpuType.dvd then
      if sp.i_stop < d then
        { st with pool := st.pool.set i (vout_DestroySubPicture sp).1 }
      else if d < sp.i_start then st
      else if sp.b_ephemer = true then
        match st.ephemer with
        | none => { st with ephemer := some i }
        | some e =>
          if sp.i_start < (st.pool.slots e).i_start then
            { st with subpicList := e :: st.subpicList,
                      ephemer := some i,
                      ephemerDate :=
                        if st.ephemerDate = 0 ∨
                           (st.pool.slots e).i_start < st.ephemerDate
                        then (st.pool.slots e).i_start else st.ephemerDate }
          else spuLink st i sp
      else spuLink st i sp
    else { st with subpicList := i :: st.subpicList }
  else st

/-- The scan loop of `vout_SortSubPictures` run over the first `n` slot
indices. -/
def sortScanN (d : Int) (p : SpuPool) (n : Nat) : SortState :=
  (List.range n).foldl (sortStep d) ⟨p, [], none, 0⟩

/-- The scan loop of `vout_SortSubPictures` over the whole pool. -/
def sortScan (d : Int) (p : SpuPool) : SortState := sortScanN d p p.size

/-- Embedding of `vout_SortSubPictures` (lines 283-380): the scan
followed by the final ephemer resolution (lines 362-379) — a retained
candidate older than `ephemer_date` is destroyed, otherwise it is
prepended as the head of the returned chain.  Returns the final state
together with the result chain `p_subpic` (head first). -/
def vout_SortSubPictures (d : Int) (p : SpuPool) : SortState × List Nat :=
  let st := sortScan d p
  match st.ephemer with
  | none => (st, st.subpicList)
  | some e =>
    if (st.pool.slots e).i_start < st.ephemerDate then
      ({ st with
         pool := st.pool.set e (vout_DestroySubPicture (st.pool.slots e)).1 },
       st.subpicList)
    else (st, e :: st.subpicList)

/-- A ready DVD subpicture already expired at display date `d`
(line 300: `display_date > i_stop`). -/
def isExpired (d : Int) (sp : Subpicture) : Prop :=
  sp.i_status = SpuStatus.ready ∧ sp.i_type = SpuType.dvd ∧ sp.i_stop < d

/-- A ready DVD subpicture eligible at display date `d`: inside the
inclusive window `[i_start, i_stop]` (lines 300-312 let it through
exactly when neither `display_date > i_stop` nor
`display_date < i_start`). -/
def eligDvd (d : Int) (sp : Subpicture) : Prop :=
  sp.i_status = SpuStatus.ready ∧ sp.i_type = SpuType.dvd ∧
  d ≤ sp.i_stop ∧ sp.i_start ≤ d

/-- An eligible ephemer subpicture. -/
def eligEph (d : Int) (sp : Subpicture) : Prop :=
  eligDvd d sp ∧ sp.b_ephemer = true

/-- A ready non-DVD subpicture — always linked (lines 353-358). -/
def isPlain (sp : Subpicture) : Prop :=
  sp.i_status = SpuStatus.ready ∧ sp.i_type ≠ SpuType.dvd

instance (d : Int) (sp : Subpicture) : Decidable (isExpired d sp) := by
  unfold isExpired; infer_instance

instance (d : Int) (sp : Subpicture) : Decidable (eligDvd d sp) := by
  unfold eligDvd; infer_instance

instance (d : Int) (sp : Subpicture) : Decidable (eligEph d sp) := by
  unfold eligEph; infer_instance

instance (sp : Subpicture) : Decidable (isPlain sp) := by
  unfold isPlain; infer_instance

/-- Pool of the C1 scenario: three eligible ephemer DVD overlays
A (start 10), B (start 20), C (start 15) in scan order, all with stop
date 100. -/
def c1pool : SpuPool :=
  ⟨3, fun j => match j with
    | 0 => { i_status := .ready, i_type := .dvd, b_ephemer := true,
             i_start := 10, i_stop := 100 }
    | 1 => { i_status := .ready, i_type := .dvd, b_ephemer := true,
             i_start := 20, i_stop := 100 }
    | 2 => { i_status := .ready, i_type := .dvd, b_ephemer := true,
             i_start := 15, i_stop := 100 }
    | _ => default⟩

/-- Counterexample to C1 as stated: at display date 30 on the
A(10), B(20), C(15) scenario the candidate kept by the scan is A —
the overlay with the earliest start date — while B and C are linked into
the result list; the call returns the chain C, B (slot indices 2 then 1),
slot 2 (start 15) is rendered with status still ready, and only A is
destroyed.  The claim instead predicts a returned chain containing only
B, with C destroyed. -/
theorem C1_counterexample :
    (vout_SortSubPictures 30 c1pool).2 = [2, 1] ∧
    (vout_SortSubPictures 30 c1pool).2 ≠ [1] ∧
    2 ∈ (vout_SortSubPictures 30 c1pool).2 ∧
    ((vout_SortSubPictures 30 c1pool).1.pool.slots 2).i_status =
      SpuStatus.ready ∧
    (c1pool.slots 2).i_start = 15 ∧
    ((vout_SortSubPictures 30 c1pool).1.pool.slots 0).i_status =
      SpuStatus.destroyed := by
  refine ⟨by decide, by decide, by decide, by decide, by decide, by decide⟩

/-- Pool of the C2 counterexample: a ready text overlay with start
date 3, and two eligible non-ephemer DVD overlays with start dates 0
and 10. -/
def c2pool : SpuPool :=
  ⟨3, fun j => match j with
    | 0 => { i_status := .ready, i_type := .text, i_start := 3 }
    | 1 => { i_status := .ready, i_type := .dvd, i_start := 0,
             i_stop := 100 }
    | 2 => { i_status := .ready, i_type := .dvd, i_start := 10,
             i_stop := 100 }
    | _ => default⟩

/-- Counterexample to C2 as stated: at display date 10 all three
overlays of `c2pool` are linked into the result list, whose minimum
start date is 0 (the DVD overlay at slot 1; even the text overlay at
slot 0 has start date 3), yet `ephemer_date` ends up 10: the
`!ephemer_date` test treats the start date 0 as "unset" and lets the
later start date 10 overwrite it, and non-DVD overlays never update the
date at all.  So `ephemer_date` is **not** the minimum start date of the
linked overlays. -/
theorem C2_counterexample :
    (sortScan 10 c2pool).ephemerDate = 10 ∧
    (sortScan 10 c2pool).subpicList = [2, 1, 0] ∧
    (c2pool.slots 1).i_type = SpuType.dvd ∧
    (c2pool.slots 1).i_start = 0 ∧
    ¬ (sortScan 10 c2pool).ephemerDate ≤ (c2pool.slots 1).i_start ∧
    (c2pool.slots 0).i_start = 3 ∧
    ¬ (sortScan 10 c2pool).ephemerDate ≤ (c2pool.slots 0).i_start := by
  refine ⟨by decide, by decide, by decide, by decide, by decide, by decide,
    by decide⟩

/-- Pool of the C3 counterexample: an eligible ephemer DVD overlay with
window [5, 10] and an eligible non-ephemer DVD overlay with start date 7
and stop date 100. -/
def c3pool : SpuPool :=
  ⟨2, fun j => match j with
    | 0 => { i_status := .ready, i_type := .dvd, b_ephemer := true,
             i_start := 5, i_stop := 10 }
    | 1 => { i_status := .ready, i_type := .dvd, i_start := 7,
             i_stop := 100 }
    | _ => default⟩

/-- Counterexample to C3 as stated: at display date 10 — exactly the
stop date of the ephemer overlay in slot 0 — that overlay is eligible
(`displayTimestamp = stopTime` is inside the inclusive window), yet the
very same call destroys it through the ephemeral-replacement rule
(its start date 5 is below the final `ephemer_date` 7) and it does not
appear in the returned chain, contradicting "at `displayTimestamp` equal
to `stopTime` the overlay is still eligible and is not destroyed". -/
theorem C3_counterexample :
    (c3pool.slots 0).i_stop = 10 ∧
    eligDvd 10 (c3pool.slots 0) ∧
    ((vout_SortSubPictures 10 c3pool).1.pool.slots 0).i_status =
      SpuStatus.destroyed ∧
    0 ∉ (vout_SortSubPictures 10 c3pool).2 ∧
    (vout_SortSubPictures 10 c3pool).2 = [1] := by
  refine ⟨by decide, by decide, by decide, by decide, by decide⟩

/-- A registered slot at stage `n` of the scan: an eligible DVD slot
among the first `n` scanned that is not the current ephemer candidate —
exactly the slots whose start date has been folded into `ephemer_date`,
and exactly the DVD slots sitting in the result chain. -/
def SpuReg (d : Int) (p : SpuPool) (n : Nat) (st : SortState) (j : Nat) :
    Prop :=
  j < n ∧ eligDvd d (p.slots j) ∧ st.ephemer ≠ some j

theorem eligDvd_not_expired {d : Int} {sp : Subpicture}
    (h : eligDvd d sp) : ¬ isExpired d sp := by
  intro hexp
  exact absurd h.2.2.1 (not_le.mpr hexp.2.2)

/-- Invariant of the scan loop of `vout_SortSubPictures` after the first
`n` slot indices have been processed, relating the running state to the
original pool `p`: expired slots (and only those) have been destroyed;
the result chain holds exactly the ready non-DVD slots and the eligible
DVD slots other than the current candidate; the candidate, when present,
is the eligible ephemer slot with the smallest start date seen so far
(first one on ties); and `ephemer_date` is an attained value that — as
long as all eligible start dates are positive — is the minimum start
date over the registered slots. -/
structure ScanInv (d : Int) (p : SpuPool) (n : Nat) (st : SortState) :
    Prop where
  size_eq : st.pool.size = p.size
  untouched : ∀ j, ¬ (j < n ∧ isExpired d (p.slots j)) →
      st.pool.slots j = p.slots j
  expDestroyed : ∀ j, j < n → isExpired d (p.slots j) →
      st.pool.slots j = { p.slots j with i_status := SpuStatus.destroyed }
  memList : ∀ j, j ∈ st.subpicList ↔
      (j < n ∧ (isPlain (p.slots j) ∨
        (eligDvd d (p.slots j) ∧ st.ephemer ≠ some j)))
  ephNone : st.ephemer = none → ∀ j, j < n → ¬ eligEph d (p.slots j)
  ephSome : ∀ e, st.ephemer = some e → e < n ∧ eligEph d (p.slots e) ∧
      ∀ j, j < n → eligEph d (p.slots j) →
        (p.slots e).i_start ≤ (p.slots j).i_start ∧
        ((p.slots e).i_start = (p.slots j).i_start → e ≤ j)
  dateAttained : st.ephemerDate = 0 ∨
      ∃ j, SpuReg d p n st j ∧ (p.slots j).i_start = st.ephemerDate
  dateMin : (∀ j, j < n → eligDvd d (p.slots j) → 0 < (p.slots j).i_start) →
      (st.ephemerDate = 0 → ∀ j, ¬ SpuReg d p n st j) ∧
      (∀ j, SpuReg d p n st j → st.ephemerDate ≤ (p.slots j).i_start)

theorem sortScanN_succ (d : Int) (p : SpuPool) (n : Nat) :
    sortScanN d p (n + 1) = sortStep d (sortScanN d p n) n := by
  rw [sortScanN, List.range_succ, List.foldl_append, sortScanN]
  rfl

theorem scanInv_zero (d : Int) (p : SpuPool) :
    ScanInv d p 0 (⟨p, [], none, 0⟩ : SortState) := by
  refine ⟨rfl, fun j _ => rfl, fun j hj => absurd hj (Nat.not_lt_zero j),
    fun j => ?_, fun _ j hj => absurd hj (Nat.not_lt_zero j),
    fun e he => absurd he (by simp), Or.inl rfl, fun _ => ⟨fun _ j hj => ?_, fun j hj => ?_⟩⟩
  · simp
  · exact absurd hj.1 (Nat.not_lt_zero j)
  · exact absurd hj.1 (Nat.not_lt_zero j)

/-- Extension of the scan invariant over a slot the loop does nothing
with (not ready, or a premature DVD subpicture). -/
theorem scanInv_extend_inert (d : Int) (p : SpuPool) (n : Nat)
    (st : SortState) (inv : ScanInv d p n st)
    (h1 : ¬ isExpired d (p.slots n)) (h2 : ¬ eligDvd d (p.slots n))
    (h3 : ¬ isPlain (p.slots n)) : ScanInv d p (n + 1) st := by
  have hreg : ∀ j, SpuReg d p (n + 1) st j ↔ SpuReg d p n st j := by
    intro j
    constructor
    · rintro ⟨hj, helig, heph⟩
      rcases Nat.lt_succ_iff_lt_or_eq.mp hj with hj' | rfl
      · exact ⟨hj', helig, heph⟩
      · exact absurd helig h2
    · rintro ⟨hj, helig, heph⟩
      exact ⟨Nat.lt_succ_of_lt hj, helig, heph⟩
  refine ⟨inv.size_eq, ?_, ?_, ?_, ?_, ?_, ?_, ?_⟩
  · intro j hj
    refine inv.untouched j (fun hc => hj ⟨Nat.lt_succ_of_lt hc.1, hc.2⟩)
  · intro j hj hexp
    rcases Nat.lt_succ_iff_lt_or_eq.mp hj with hj' | rfl
    · exact inv.expDestroyed j hj' hexp
    · exact absurd hexp h1
  · intro j
    rw [inv.memList j]
    constructor
    · rintro ⟨hj, hx⟩; exact ⟨Nat.lt_succ_of_lt hj, hx⟩
    · rintro ⟨hj, hx⟩
      rcases Nat.lt_succ_iff_lt_or_eq.mp hj with hj' | rfl
      · exact ⟨hj', hx⟩
      · rcases hx with hx | hx
        · exact absurd hx h3
        · exact absurd hx.1 h2
  · intro hnone j hj
    rcases Nat.lt_succ_iff_lt_or_eq.mp hj with hj' | rfl
    · exact inv.ephNone hnone j hj'
    · exact fun he => h2 he.1
  · intro e he
    obtain ⟨hen, helig, hmin⟩ := inv.ephSome e he
    refine ⟨Nat.lt_succ_of_lt hen, helig, fun j hj hje => ?_⟩
    rcases Nat.lt_succ_iff_lt_or_eq.mp hj with hj' | rfl
    · exact hmin j hj' hje
    · exact absurd hje.1 h2
  · rcases inv.dateAttained with h | ⟨j, hj, hjs⟩
    · exact Or.inl h
    · exact Or.inr ⟨j, (hreg j).mpr hj, hjs⟩
  · intro hpos
    have hpos' : ∀ j, j < n → eligDvd d (p.slots j) → 0 < (p.slots j).i_start :=
      fun j hj => hpos j (Nat.lt_succ_of_lt hj)
    obtain ⟨hz, hm⟩ := inv.dateMin hpos'
    exact ⟨fun h0 j hj => hz h0 j ((hreg j).mp hj),
      fun j hj => hm j ((hreg j).mp hj)⟩

/-- Extension of the scan invariant over a slot linked into the result
chain via `spuLink`: an eligible DVD slot that is either non-ephemer, or
an ephemer slot whose start date is not below the candidate's. -/
theorem scanInv_extend_link (d : Int) (p : SpuPool) (n : Nat)
    (st : SortState) (inv : ScanInv d p n st)
    (helig : eligDvd d (p.slots n))
    (hnone : st.ephemer = none → ¬ eligEph d (p.slots n))
    (hext : ∀ e, st.ephemer = some e → eligEph d (p.slots n) →
      (p.slots e).i_start ≤ (p.slots n).i_start) :
    ScanInv d p (n + 1) (spuLink st n (p.slots n)) := by
  have hephn : st.ephemer ≠ some n := by
    cases hc : st.ephemer with
    | none => simp
    | some e =>
      have hen := (inv.ephSome e hc).1
      intro h
      rw [Option.some.injEq] at h
      omega
  have hreg : ∀ j, SpuReg d p (n + 1) (spuLink st n (p.slots n)) j ↔
      (SpuReg d p n st j ∨ j = n) := by
    intro j
    constructor
    · rintro ⟨hj, he, hp⟩
      rcases Nat.lt_succ_iff_lt_or_eq.mp hj with hj' | rfl
      · exact Or.inl ⟨hj', he, hp⟩
      · exact Or.inr rfl
    · rintro (⟨hj, he, hp⟩ | rfl)
      · exact ⟨Nat.lt_succ_of_lt hj, he, hp⟩
      · exact ⟨Nat.lt_succ_self j, helig, hephn⟩
  have hdate : (spuLink st n (p.slots n)).ephemerDate =
      if st.ephemerDate = 0 ∨ (p.slots n).i_start < st.ephemerDate
      then (p.slots n).i_start else st.ephemerDate := rfl
  refine ⟨inv.size_eq, ?_, ?_, ?_, ?_, ?_, ?_, ?_⟩
  · intro j hj
    exact inv.untouched j (fun hc => hj ⟨Nat.lt_succ_of_lt hc.1, hc.2⟩)
  · intro j hj hexp
    rcases Nat.lt_succ_iff_lt_or_eq.mp hj with hj' | rfl
    · exact inv.expDestroyed j hj' hexp
    · exact absurd hexp (eligDvd_not_expired helig)
  · intro j
    show j ∈ n :: st.subpicList ↔ _
    rw [List.mem_cons]
    constructor
    · rintro (rfl | hj)
      · exact ⟨Nat.lt_succ_self j, Or.inr ⟨helig, hephn⟩⟩
      · obtain ⟨hjn, hx⟩ := (inv.memList j).mp hj
        exact ⟨Nat.lt_succ_of_lt hjn, hx⟩
    · rintro ⟨hj, hx⟩
      rcases Nat.lt_succ_iff_lt_or_eq.mp hj with hj' | rfl
      · exact Or.inr ((inv.memList j).mpr ⟨hj', hx⟩)
      · exact Or.inl rfl
  · intro hn j hj
    rcases Nat.lt_succ_iff_lt_or_eq.mp hj with hj' | rfl
    · exact inv.ephNone hn j hj'
    · exact hnone hn
  · intro e he
    obtain ⟨hen, helige, hmin⟩ := inv.ephSome e he
    refine ⟨Nat.lt_succ_of_lt hen, helige, fun j hj hje => ?_⟩
    rcases Nat.lt_succ_iff_lt_or_eq.mp hj with hj' | rfl
    · exact hmin j hj' hje
    · exact ⟨hext e he hje, fun _ => Nat.le_of_lt hen⟩
  · by_cases hcnd : st.ephemerDate = 0 ∨ (p.slots n).i_start < st.ephemerDate
    · right
      exact ⟨n, (hreg n).mpr (Or.inr rfl), by rw [hdate, if_pos hcnd]⟩
    · rcases inv.dateAttained with h0 | ⟨j, hj, hjs⟩
      · exact absurd (Or.inl h0) hcnd
      · right
        exact ⟨j, (hreg j).mpr (Or.inl hj), by rw [hdate, if_neg hcnd]; exact hjs⟩
  · intro hpos
    have hpos' : ∀ j, j < n → eligDvd d (p.slots j) → 0 < (p.slots j).i_start :=
      fun j hj => hpos j (Nat.lt_succ_of_lt hj)
    obtain ⟨hz, hm⟩ := inv.dateMin hpos'
    have hspos : 0 < (p.slots n).i_start := hpos n (Nat.lt_succ_self n) helig
    by_cases hcnd : st.ephemerDate = 0 ∨ (p.slots n).i_start < st.ephemerDate
    · constructor
      · intro h0
        rw [hdate, if_pos hcnd] at h0
        omega
      · intro j hj
        rw [hdate, if_pos hcnd]
        rcases (hreg j).mp hj with hj' | rfl
        · rcases hcnd with h0 | hlt
          · exact absurd hj' (hz h0 j)
          · exact le_of_lt (lt_of_lt_of_le hlt (hm j hj'))
        · exact le_refl _
    · push_neg at hcnd
      constructor
      · intro h0
        rw [hdate, if_neg (by push_neg; exact hcnd)] at h0
        exact absurd h0 hcnd.1
      · intro j hj
        rw [hdate, if_neg (by push_neg; exact hcnd)]
        rcases (hreg j).mp hj with hj' | rfl
        · exact hm j hj'
        · exact hcnd.2

/-- Extension of the scan invariant over an expired ready DVD slot: the
loop destroys it in place and does not link it. -/
theorem scanInv_extend_expired (d : Int) (p : SpuPool) (n : Nat)
    (st : SortState) (inv : ScanInv d p n st)
    (hexp : isExpired d (p.slots n)) :
    ScanInv d p (n + 1) { st with
      pool := st.pool.set n { p.slots n with i_status := SpuStatus.destroyed } } := by
  have hnelig : ¬ eligDvd d (p.slots n) :=
    fun h => eligDvd_not_expired h hexp
  have hnplain : ¬ isPlain (p.slots n) := fun h => h.2 hexp.2.1
  have hreg : ∀ j, SpuReg d p (n + 1)
      { st with pool := st.pool.set n { p.slots n with
          i_status := SpuStatus.destroyed } } j ↔ SpuReg d p n st j := by
    intro j
    constructor
    · rintro ⟨hj, he, hp⟩
      rcases Nat.lt_succ_iff_lt_or_eq.mp hj with hj' | rfl
      · exact ⟨hj', he, hp⟩
      · exact absurd he hnelig
    · rintro ⟨hj, he, hp⟩
      exact ⟨Nat.lt_succ_of_lt hj, he, hp⟩
  refine ⟨by simp [inv.size_eq], ?_, ?_, ?_, ?_, ?_, ?_, ?_⟩
  · intro j hj
    by_cases hjn : j = n
    · subst hjn
      exact absurd ⟨Nat.lt_succ_self j, hexp⟩ hj
    · rw [SpuPool.set_slots_other _ _ _ hjn]
      exact inv.untouched j (fun hc => hj ⟨Nat.lt_succ_of_lt hc.1, hc.2⟩)
  · intro j hj hexpj
    by_cases hjn : j = n
    · subst hjn
      rw [SpuPool.set_slots_self]
    · rw [SpuPool.set_slots_other _ _ _ hjn]
      rcases Nat.lt_succ_iff_lt_or_eq.mp hj with hj' | rfl
      · exact inv.expDestroyed j hj' hexpj
      · exact absurd rfl hjn
  · intro j
    show j ∈ st.subpicList ↔ _
    rw [inv.memList j]
    constructor
    · rintro ⟨hj, hx⟩
      exact ⟨Nat.lt_succ_of_lt hj, hx⟩
    · rintro ⟨hj, hx⟩
      rcases Nat.lt_succ_iff_lt_or_eq.mp hj with hj' | rfl
      · exact ⟨hj', hx⟩
      · rcases hx with hx | hx
        · exact absurd hx hnplain
        · exact absurd hx.1 hnelig
  · intro hn j hj
    rcases Nat.lt_succ_iff_lt_or_eq.mp hj with hj' | rfl
    · exact inv.ephNone hn j hj'
    · exact fun he => hnelig he.1
  · intro e he
    obtain ⟨hen, helige, hmin⟩ := inv.ephSome e he
    refine ⟨Nat.lt_succ_of_lt hen, helige, fun j hj hje => ?_⟩
    rcases Nat.lt_succ_iff_lt_or_eq.mp hj with hj' | rfl
    · exact hmin j hj' hje
    · exact absurd hje.1 hnelig
  · rcases inv.dateAttained with h | ⟨j, hj, hjs⟩
    · exact Or.inl h
    · exact Or.inr ⟨j, (hreg j).mpr hj, hjs⟩
  · intro hpos
    have hpos' : ∀ j, j < n → eligDvd d (p.slots j) → 0 < (p.slots j).i_start :=
      fun j hj => hpos j (Nat.lt_succ_of_lt hj)
    obtain ⟨hz, hm⟩ := inv.dateMin hpos'
    exact ⟨fun h0 j hj => hz h0 j ((hreg j).mp hj),
      fun j hj => hm j ((hreg j).mp hj)⟩

/-- Extension of the scan invariant over a ready non-DVD slot: linked
unconditionally, without touching the ephemer bookkeeping. -/
theorem scanInv_extend_plain (d : Int) (p : SpuPool) (n : Nat)
    (st : SortState) (inv : ScanInv d p n st)
    (hplain : isPlain (p.slots n)) :
    ScanInv d p (n + 1) { st with subpicList := n :: st.subpicList } := by
  have hnelig : ¬ eligDvd d (p.slots n) := fun h => hplain.2 h.2.1
  have hnexp : ¬ isExpired d (p.slots n) := fun h => hplain.2 h.2.1
  have hreg : ∀ j, SpuReg d p (n + 1)
      { st with subpicList := n :: st.subpicList } j ↔ SpuReg d p n st j := by
    intro j
    constructor
    · rintro ⟨hj, he, hp⟩
      rcases Nat.lt_succ_iff_lt_or_eq.mp hj with hj' | rfl
      · exact ⟨hj', he, hp⟩
      · exact absurd he hnelig
    · rintro ⟨hj, he, hp⟩
      exact ⟨Nat.lt_succ_of_lt hj, he, hp⟩
  refine ⟨inv.size_eq, ?_, ?_, ?_, ?_, ?_, ?_, ?_⟩
  · intro j hj
    exact inv.untouched j (fun hc => hj ⟨Nat.lt_succ_of_lt hc.1, hc.2⟩)
  · intro j hj hexpj
    rcases Nat.lt_succ_iff_lt_or_eq.mp hj with hj' | rfl
    · exact inv.expDestroyed j hj' hexpj
    · exact absurd hexpj hnexp
  · intro j
    show j ∈ n :: st.subpicList ↔ _
    rw [List.mem_cons]
    constructor
    · rintro (rfl | hj)
      · exact ⟨Nat.lt_succ_self j, Or.inl hplain⟩
      · obtain ⟨hjn, hx⟩ := (inv.memList j).mp hj
        exact ⟨Nat.lt_succ_of_lt hjn, hx⟩
    · rintro ⟨hj, hx⟩
      rcases Nat.lt_succ_iff_lt_or_eq.mp hj with hj' | rfl
      · exact Or.inr ((inv.memList j).mpr ⟨hj', hx⟩)
      · exact Or.inl rfl
  · intro hn j hj
    rcases Nat.lt_succ_iff_lt_or_eq.mp hj with hj' | rfl
    · exact inv.ephNone hn j hj'
    · exact fun he => hnelig he.1
  · intro e he
    obtain ⟨hen, helige, hmin⟩ := inv.ephSome e he
    refine ⟨Nat.lt_succ_of_lt hen, helige, fun j hj hje => ?_⟩
    rcases Nat.lt_succ_iff_lt_or_eq.mp hj with hj' | rfl
    · exact hmin j hj' hje
    · exact absurd hje.1 hnelig
  · rcases inv.dateAttained with h | ⟨j, hj, hjs⟩
    · exact Or.inl h
    · exact Or.inr ⟨j, (hreg j).mpr hj, hjs⟩
  · intro hpos
    have hpos' : ∀ j, j < n → eligDvd d (p.slots j) → 0 < (p.slots j).i_start :=
      fun j hj => hpos j (Nat.lt_succ_of_lt hj)
    obtain ⟨hz, hm⟩ := inv.dateMin hpos'
    exact ⟨fun h0 j hj => hz h0 j ((hreg j).mp hj),
      fun j hj => hm j ((hreg j).mp hj)⟩

/-- Extension of the scan invariant over an eligible ephemer slot found
while no candidate is held: the slot becomes the candidate (line 318). -/
theorem scanInv_extend_candnew (d : Int) (p : SpuPool) (n : Nat)
    (st : SortState) (inv : ScanInv d p n st)
    (heph : eligEph d (p.slots n)) (hcand : st.ephemer = none) :
    ScanInv d p (n + 1) { st with ephemer := some n } := by
  have hnexp : ¬ isExpired d (p.slots n) := eligDvd_not_expired heph.1
  have hnplain : ¬ isPlain (p.slots n) := fun h => h.2 heph.1.2.1
  have hreg : ∀ j, SpuReg d p (n + 1) { st with ephemer := some n } j ↔
      SpuReg d p n st j := by
    intro j
    constructor
    · rintro ⟨hj, he, hp⟩
      rcases Nat.lt_succ_iff_lt_or_eq.mp hj with hj' | rfl
      · exact ⟨hj', he, by rw [hcand]; simp⟩
      · exact absurd rfl hp
    · rintro ⟨hj, he, _⟩
      refine ⟨Nat.lt_succ_of_lt hj, he, ?_⟩
      show some n ≠ some j
      simp only [ne_eq, Option.some.injEq]
      omega
  refine ⟨inv.size_eq, ?_, ?_, ?_, ?_, ?_, ?_, ?_⟩
  · intro j hj
    exact inv.untouched j (fun hc => hj ⟨Nat.lt_succ_of_lt hc.1, hc.2⟩)
  · intro j hj hexpj
    rcases Nat.lt_succ_iff_lt_or_eq.mp hj with hj' | rfl
    · exact inv.expDestroyed j hj' hexpj
    · exact absurd hexpj hnexp
  · intro j
    show j ∈ st.subpicList ↔ _
    rw [inv.memList j]
    constructor
    · rintro ⟨hj, hx⟩
      refine ⟨Nat.lt_succ_of_lt hj, ?_⟩
      rcases hx with hx | hx
      · exact Or.inl hx
      · refine Or.inr ⟨hx.1, ?_⟩
        show some n ≠ some j
        simp only [ne_eq, Option.some.injEq]
        omega
    · rintro ⟨hj, hx⟩
      rcases Nat.lt_succ_iff_lt_or_eq.mp hj with hj' | rfl
      · refine ⟨hj', ?_⟩
        rcases hx with hx | hx
        · exact Or.inl hx
        · exact Or.inr ⟨hx.1, by rw [hcand]; simp⟩
      · rcases hx with hx | hx
        · exact absurd hx hnplain
        · exact absurd rfl hx.2
  · intro hn
    exact absurd hn (by simp)
  · intro e he
    have hen : e = n := by
      have : some n = some e := he
      exact (Option.some.injEq n e ▸ this).symm
    subst hen
    refine ⟨Nat.lt_succ_self e, heph, fun j hj hje => ?_⟩
    rcases Nat.lt_succ_iff_lt_or_eq.mp hj with hj' | rfl
    · exact absurd hje (inv.ephNone hcand j hj')
    · exact ⟨le_refl _, fun _ => le_refl _⟩
  · rcases inv.dateAttained with h | ⟨j, hj, hjs⟩
    · exact Or.inl h
    · exact Or.inr ⟨j, (hreg j).mpr hj, hjs⟩
  · intro hpos
    have hpos' : ∀ j, j < n → eligDvd d (p.slots j) → 0 < (p.slots j).i_start :=
      fun j hj => hpos j (Nat.lt_succ_of_lt hj)
    obtain ⟨hz, hm⟩ := inv.dateMin hpos'
    exact ⟨fun h0 j hj => hz h0 j ((hreg j).mp hj),
      fun j hj => hm j ((hreg j).mp hj)⟩

/-- Extension of the scan invariant over an eligible ephemer slot whose
start date is strictly below the current candidate's: the candidate is
demoted into the result chain (with the `ephemer_date` update of lines
333-339) and the new slot takes its place (lines 324-342). -/
theorem scanInv_extend_demote (d : Int) (p : SpuPool) (n : Nat)
    (st : SortState) (e : Nat) (inv : ScanInv d p n st)
    (heph : eligEph d (p.slots n)) (hcand : st.ephemer = some e)
    (hlt : (p.slots n).i_start < (p.slots e).i_start) :
    ScanInv d p (n + 1) { st with
      subpicList := e :: st.subpicList, ephemer := some n,
      ephemerDate :=
        if st.ephemerDate = 0 ∨ (p.slots e).i_start < st.ephemerDate
        then (p.slots e).i_start else st.ephemerDate } := by
  obtain ⟨hen, helige, hmine⟩ := inv.ephSome e hcand
  have hnexp : ¬ isExpired d (p.slots n) := eligDvd_not_expired heph.1
  have hnplain : ¬ isPlain (p.slots n) := fun h => h.2 heph.1.2.1
  have hreg : ∀ j, SpuReg d p (n + 1) { st with
      subpicList := e :: st.subpicList, ephemer := some n,
      ephemerDate :=
        if st.ephemerDate = 0 ∨ (p.slots e).i_start < st.ephemerDate
        then (p.slots e).i_start else st.ephemerDate } j ↔
      (SpuReg d p n st j ∨ j = e) := by
    intro j
    constructor
    · rintro ⟨hj, he, hp⟩
      rcases Nat.lt_succ_iff_lt_or_eq.mp hj with hj' | rfl
      · by_cases hje : j = e
        · exact Or.inr hje
        · refine Or.inl ⟨hj', he, ?_⟩
          rw [hcand]
          simp only [ne_eq, Option.some.injEq]
          exact fun h => hje h.symm
      · exact absurd rfl hp
    · rintro (⟨hj, he, _⟩ | rfl)
      · refine ⟨Nat.lt_succ_of_lt hj, he, ?_⟩
        show some n ≠ some j
        simp only [ne_eq, Option.some.injEq]
        omega
      · refine ⟨Nat.lt_succ_of_lt hen, helige.1, ?_⟩
        show some n ≠ some j
        simp only [ne_eq, Option.some.injEq]
        omega
  refine ⟨inv.size_eq, ?_, ?_, ?_, ?_, ?_, ?_, ?_⟩
  · intro j hj
    exact inv.untouched j (fun hc => hj ⟨Nat.lt_succ_of_lt hc.1, hc.2⟩)
  · intro j hj hexpj
    rcases Nat.lt_succ_iff_lt_or_eq.mp hj with hj' | rfl
    · exact inv.expDestroyed j hj' hexpj
    · exact absurd hexpj hnexp
  · intro j
    show j ∈ e :: st.subpicList ↔ _
    rw [List.mem_cons]
    constructor
    · rintro (rfl | hj)
      · refine ⟨Nat.lt_succ_of_lt hen, Or.inr ⟨helige.1, ?_⟩⟩
        show some n ≠ some j
        simp only [ne_eq, Option.some.injEq]
        omega
      · obtain ⟨hjn, hx⟩ := (inv.memList j).mp hj
        refine ⟨Nat.lt_succ_of_lt hjn, ?_⟩
        rcases hx with hx | hx
        · exact Or.inl hx
        · refine Or.inr ⟨hx.1, ?_⟩
          show some n ≠ some j
          simp only [ne_eq, Option.some.injEq]
          omega
    · rintro ⟨hj, hx⟩
      rcases Nat.lt_succ_iff_lt_or_eq.mp hj with hj' | rfl
      · rcases hx with hx | hx
        · exact Or.inr ((inv.memList j).mpr ⟨hj', Or.inl hx⟩)
        · by_cases hje : j = e
          · exact Or.inl hje
          · refine Or.inr ((inv.memList j).mpr ⟨hj', Or.inr ⟨hx.1, ?_⟩⟩)
            rw [hcand]
            simp only [ne_eq, Option.some.injEq]
            exact fun h => hje h.symm
      · rcases hx with hx | hx
        · exact absurd hx hnplain
        · exact absurd rfl hx.2
  · intro hn
    exact absurd hn (by simp)
  · intro e' he'
    have hen' : e' = n := by
      have : some n = some e' := he'
      exact (Option.some.injEq n e' ▸ this).symm
    subst hen'
    refine ⟨Nat.lt_succ_self e', heph, fun j hj hje => ?_⟩
    rcases Nat.lt_succ_iff_lt_or_eq.mp hj with hj' | rfl
    · have hej := (hmine j hj' hje).1
      have hlt' : (p.slots e').i_start < (p.slots j).i_start :=
        lt_of_lt_of_le hlt hej
      exact ⟨le_of_lt hlt', fun heq => absurd heq (ne_of_lt hlt')⟩
    · exact ⟨le_refl _, fun _ => le_refl _⟩
  · by_cases hcnd : st.ephemerDate = 0 ∨ (p.slots e).i_start < st.ephemerDate
    · right
      refine ⟨e, (hreg e).mpr (Or.inr rfl), ?_⟩
      show (p.slots e).i_start = if _ then _ else _
      rw [if_pos hcnd]
    · rcases inv.dateAttained with h0 | ⟨j, hj, hjs⟩
      · exact absurd (Or.inl h0) hcnd
      · right
        refine ⟨j, (hreg j).mpr (Or.inl hj), ?_⟩
        show (p.slots j).i_start = if _ then _ else _
        rw [if_neg hcnd]
        exact hjs
  · intro hpos
    have hpos' : ∀ j, j < n → eligDvd d (p.slots j) → 0 < (p.slots j).i_start :=
      fun j hj => hpos j (Nat.lt_succ_of_lt hj)
    obtain ⟨hz, hm⟩ := inv.dateMin hpos'
    have hespos : 0 < (p.slots e).i_start := hpos' e hen helige.1
    by_cases hcnd : st.ephemerDate = 0 ∨ (p.slots e).i_start < st.ephemerDate
    · constructor
      · intro h0
        rw [if_pos hcnd] at h0
        exact absurd h0 (ne_of_gt hespos)
      · intro j hj
        rw [if_pos hcnd]
        rcases (hreg j).mp hj with hj' | rfl
        · rcases hcnd with h0 | hlt'
          · exact absurd hj' (hz h0 j)
          · exact le_of_lt (lt_of_lt_of_le hlt' (hm j hj'))
        · exact le_refl _
    · push_neg at hcnd
      constructor
      · intro h0
        rw [if_neg (by push_neg; exact hcnd)] at h0
        exact absurd h0 hcnd.1
      · intro j hj
        rw [if_neg (by push_neg; exact hcnd)]
        rcases (hreg j).mp hj with hj' | rfl
        · exact hm j hj'
        · exact hcnd.2

/-- One step of the scan loop preserves the invariant. -/
theorem scanInv_step (d : Int) (p : SpuPool) (n : Nat) (st : SortState)
    (inv : ScanInv d p n st) : ScanInv d p (n + 1) (sortStep d st n) := by
  have hsp : st.pool.slots n = p.slots n :=
    inv.untouched n (fun hc => absurd hc.1 (Nat.lt_irrefl n))
  by_cases hready : (p.slots n).i_status = SpuStatus.ready
  · by_cases hdvd : (p.slots n).i_type = SpuType.dvd
    · by_cases hstop : (p.slots n).i_stop < d
      · have hstep : sortStep d st n = { st with
            pool := st.pool.set n
              { p.slots n with i_status := SpuStatus.destroyed } } := by
          simp only [sortStep, hsp, if_pos hready, if_pos hdvd, if_pos hstop]
          rfl
        rw [hstep]
        exact scanInv_extend_expired d p n st inv ⟨hready, hdvd, hstop⟩
      · by_cases hstart : d < (p.slots n).i_start
        · have hstep : sortStep d st n = st := by
            simp only [sortStep, hsp, if_pos hready, if_pos hdvd, if_neg hstop,
              if_pos hstart]
          rw [hstep]
          refine scanInv_extend_inert d p n st inv
            (fun h => absurd h.2.2 hstop)
            (fun h => absurd hstart (not_lt.mpr h.2.2.2))
            (fun h => h.2 hdvd)
        · have helig : eligDvd d (p.slots n) :=
            ⟨hready, hdvd, not_lt.mp hstop, not_lt.mp hstart⟩
          by_cases heph : (p.slots n).b_ephemer = true
          · cases hcand : st.ephemer with
            | none =>
              have hstep : sortStep d st n = { st with ephemer := some n } := by
                simp only [sortStep, hsp, if_pos hready, if_pos hdvd,
                  if_neg hstop, if_neg hstart, if_pos heph, hcand]
              rw [hstep]
              exact scanInv_extend_candnew d p n st inv ⟨helig, heph⟩ hcand
            | some e =>
              have hespEq : st.pool.slots e = p.slots e := by
                have helige := (inv.ephSome e hcand).2.1
                exact inv.untouched e
                  (fun hc => eligDvd_not_expired helige.1 hc.2)
              by_cases hlt : (p.slots n).i_start < (p.slots e).i_start
              · have hstep : sortStep d st n = { st with
                    subpicList := e :: st.subpicList, ephemer := some n,
                    ephemerDate :=
                      if st.ephemerDate = 0 ∨
                         (p.slots e).i_start < st.ephemerDate
                      then (p.slots e).i_start else st.ephemerDate } := by
                  simp only [sortStep, hsp, hespEq, if_pos hready, if_pos hdvd,
                    if_neg hstop, if_neg hstart, if_pos heph, hcand, if_pos hlt]
                rw [hstep]
                exact scanInv_extend_demote d p n st e inv ⟨helig, heph⟩
                  hcand hlt
              · have hstep : sortStep d st n = spuLink st n (p.slots n) := by
                  simp only [sortStep, hsp, hespEq, if_pos hready, if_pos hdvd,
                    if_neg hstop, if_neg hstart, if_pos heph, hcand, if_neg hlt]
                rw [hstep]
                refine scanInv_extend_link d p n st inv helig
                  (fun hn => by rw [hcand] at hn; cases hn)
                  (fun e' he' _ => ?_)
                have hee : e' = e := by
                  rw [hcand, Option.some.injEq] at he'
                  exact he'.symm
                subst hee
                exact not_lt.mp hlt
          · have hstep : sortStep d st n = spuLink st n (p.slots n) := by
              simp only [sortStep, hsp, if_pos hready, if_pos hdvd,
                if_neg hstop, if_neg hstart, if_neg heph]
            rw [hstep]
            exact scanInv_extend_link d p n st inv helig
              (fun _ he => absurd he.2 heph)
              (fun e he hje => absurd hje.2 heph)
    · have hstep : sortStep d st n =
          { st with subpicList := n :: st.subpicList } := by
        simp only [sortStep, hsp, if_pos hready, if_neg hdvd]
      rw [hstep]
      exact scanInv_extend_plain d p n st inv ⟨hready, hdvd⟩
  · have hstep : sortStep d st n = st := by
      simp only [sortStep, hsp, if_neg hready]
    rw [hstep]
    exact scanInv_extend_inert d p n st inv (fun h => hready h.1)
      (fun h => hready h.1) (fun h => hready h.1)

/-- The scan invariant holds after any number of steps of the scan loop
of `vout_SortSubPictures`. -/
theorem scanInv_sortScanN (d : Int) (p : SpuPool) :
    ∀ n, ScanInv d p n (sortScanN d p n) := by
  intro n
  induction n with
  | zero => exact scanInv_zero d p
  | succ n ih =>
    rw [sortScanN_succ]
    exact scanInv_step d p n (sortScanN d p n) ih

/-- The scan invariant at the end of the scan loop. -/
theorem scanInv_sortScan (d : Int) (p : SpuPool) :
    ScanInv d p p.size (sortScan d p) :=
  scanInv_sortScanN d p p.size

/-- Case analysis of the final ephemer resolution of
`vout_SortSubPictures`: the returned chain is the scan's chain, possibly
with the retained candidate prepended, and the final pool differs from
the scan's pool at most by the destruction of the retained candidate. -/
theorem sortSub_result_cases (d : Int) (p : SpuPool) :
    ((vout_SortSubPictures d p).2 = (sortScan d p).subpicList ∨
     (∃ e, (sortScan d p).ephemer = some e ∧
       (vout_SortSubPictures d p).2 = e :: (sortScan d p).subpicList)) ∧
    (∀ j, (vout_SortSubPictures d p).1.pool.slots j =
        (sortScan d p).pool.slots j ∨
      ((sortScan d p).ephemer = some j ∧
       (vout_SortSubPictures d p).1.pool.slots j =
         { (sortScan d p).pool.slots j with
           i_status := SpuStatus.destroyed })) := by
  cases hc : (sortScan d p).ephemer with
  | none =>
    constructor
    · left
      simp only [vout_SortSubPictures, hc]
    · intro j
      left
      simp only [vout_SortSubPictures, hc]
  | some e =>
    by_cases hlt : ((sortScan d p).pool.slots e).i_start <
        (sortScan d p).ephemerDate
    · constructor
      · left
        simp only [vout_SortSubPictures, hc, if_pos hlt]
      · intro j
        by_cases hje : j = e
        · subst hje
          right
          refine ⟨rfl, ?_⟩
          simp only [vout_SortSubPictures, hc, if_pos hlt]
          rw [SpuPool.set_slots_self]
          rfl
        · left
          simp only [vout_SortSubPictures, hc, if_pos hlt]
          exact SpuPool.set_slots_other _ _ _ hje
    · constructor
      · right
        refine ⟨e, rfl, ?_⟩
        simp only [vout_SortSubPictures, hc, if_neg hlt]
      · intro j
        left
        simp only [vout_SortSubPictures, hc, if_neg hlt]

/-- C1 (amended): during the scan of `SelectForDisplay` the retained
ephemer candidate is always the eligible ephemer overlay with the
**earliest** start date seen so far (the code replaces the candidate
only when the newly scanned start date is strictly smaller); a demoted
former candidate is linked into the normal result list and is not
destroyed during the scan; every other eligible ephemer overlay is
linked and still ready after the scan, and the candidate itself is never
in the scan's list.  In the concrete scenario A(start 10), B(start 20),
C(start 15), all eligible at display date 30, the call returns the chain
C, B (both rendered) and destroys only A. -/
theorem C1_ephemer_policy :
    (∀ (d : Int) (p : SpuPool) (e : Nat),
      (sortScan d p).ephemer = some e →
      eligEph d (p.slots e) ∧
      (∀ j, j < p.size → eligEph d (p.slots j) →
        (p.slots e).i_start ≤ (p.slots j).i_start) ∧
      e ∉ (sortScan d p).subpicList ∧
      (∀ j, j < p.size → eligEph d (p.slots j) → j ≠ e →
        j ∈ (sortScan d p).subpicList ∧
        ((sortScan d p).pool.slots j).i_status = SpuStatus.ready)) ∧
    ((vout_SortSubPictures 30 c1pool).2 = [2, 1] ∧
     ((vout_SortSubPictures 30 c1pool).1.pool.slots 0).i_status =
       SpuStatus.destroyed ∧
     (0 : Nat) ∉ (vout_SortSubPictures 30 c1pool).2) := by
  constructor
  · intro d p e he
    have inv := scanInv_sortScan d p
    obtain ⟨hen, helige, hmin⟩ := inv.ephSome e he
    refine ⟨helige, fun j hj hje => (hmin j hj hje).1, ?_, ?_⟩
    · intro hmem
      obtain ⟨_, hx⟩ := (inv.memList e).mp hmem
      rcases hx with hx | hx
      · exact hx.2 helige.1.2.1
      · exact hx.2 he
    · intro j hj hje hne
      constructor
      · refine (inv.memList j).mpr ⟨hj, Or.inr ⟨hje.1, ?_⟩⟩
        rw [he]
        simp only [ne_eq, Option.some.injEq]
        exact fun h => hne h.symm
      · have := inv.untouched j
          (fun hc => eligDvd_not_expired hje.1 hc.2)
        rw [this]
        exact hje.1.1
  · exact ⟨by decide, by decide, by decide⟩

/-- Witness for the general part of C1 (amended) on the concrete
A(10), B(20), C(15) scenario: the candidate held after the scan is
slot 0 (overlay A, the earliest start date), it is not in the scan's
result list, while slot 2 (overlay C) is linked and still ready. -/
theorem C1_ephemer_policy_witness :
    eligEph 30 (c1pool.slots 0) ∧
    (0 : Nat) ∉ (sortScan 30 c1pool).subpicList ∧
    2 ∈ (sortScan 30 c1pool).subpicList ∧
    ((sortScan 30 c1pool).pool.slots 2).i_status = SpuStatus.ready := by
  have h := C1_ephemer_policy.1 30 c1pool 0 (by decide)
  have h2 := h.2.2.2 2 (by decide) (by decide) (by decide)
  exact ⟨h.1, h.2.2.1, h2.1, h2.2⟩

/-- C2 (amended): provided every eligible DVD overlay has a positive
start date, `ephemer_date` at the end of the scan equals the minimum
start date among the **DVD** overlays demoted or linked into the result
list (it is attained by one of them and bounds all of them from below);
ready non-DVD overlays in the list do not participate, and a start date
of 0 would be treated as "unset" by the `!ephemer_date` test.  After the
scan, a retained ephemer candidate with start date strictly below
`ephemer_date` is destroyed and excluded from the output, and otherwise
it is prepended as the head of the returned chain. -/
theorem C2_ephemer_cutoff (d : Int) (p : SpuPool)
    (hpos : ∀ j, j < p.size → eligDvd d (p.slots j) →
      0 < (p.slots j).i_start) :
    ((∃ j ∈ (sortScan d p).subpicList,
        (p.slots j).i_type = SpuType.dvd) →
      (∃ j ∈ (sortScan d p).subpicList,
        (p.slots j).i_type = SpuType.dvd ∧
        (p.slots j).i_start = (sortScan d p).ephemerDate) ∧
      (∀ j ∈ (sortScan d p).subpicList,
        (p.slots j).i_type = SpuType.dvd →
        (sortScan d p).ephemerDate ≤ (p.slots j).i_start)) ∧
    (∀ e, (sortScan d p).ephemer = some e →
      (((p.slots e).i_start < (sortScan d p).ephemerDate →
        ((vout_SortSubPictures d p).1.pool.slots e).i_status =
          SpuStatus.destroyed ∧
        e ∉ (vout_SortSubPictures d p).2 ∧
        (vout_SortSubPictures d p).2 = (sortScan d p).subpicList) ∧
      (¬ (p.slots e).i_start < (sortScan d p).ephemerDate →
        (vout_SortSubPictures d p).2 =
          e :: (sortScan d p).subpicList))) := by
  have inv := scanInv_sortScan d p
  have hmemReg : ∀ j, j ∈ (sortScan d p).subpicList →
      (p.slots j).i_type = SpuType.dvd →
      SpuReg d p p.size (sortScan d p) j := by
    intro j hmem hdvd
    obtain ⟨hj, hx⟩ := (inv.memList j).mp hmem
    rcases hx with hx | hx
    · exact absurd hdvd hx.2
    · exact ⟨hj, hx.1, hx.2⟩
  constructor
  · rintro ⟨j0, hj0mem, hj0dvd⟩
    have hreg0 := hmemReg j0 hj0mem hj0dvd
    obtain ⟨hz, hm⟩ := inv.dateMin hpos
    have hdne : (sortScan d p).ephemerDate ≠ 0 := by
      intro h0
      exact hz h0 j0 hreg0
    constructor
    · rcases inv.dateAttained with h0 | ⟨k, hk, hks⟩
      · exact absurd h0 hdne
      · refine ⟨k, ?_, hk.2.1.2.1, hks⟩
        exact (inv.memList k).mpr ⟨hk.1, Or.inr ⟨hk.2.1, hk.2.2⟩⟩
    · intro j hmem hdvd
      exact hm j (hmemReg j hmem hdvd)
  · intro e he
    have ⟨hen, helige, _⟩ := inv.ephSome e he
    have hesp : (sortScan d p).pool.slots e = p.slots e :=
      inv.untouched e (fun hc => eligDvd_not_expired helige.1 hc.2)
    have henotmem : e ∉ (sortScan d p).subpicList := by
      intro hmem
      obtain ⟨_, hx⟩ := (inv.memList e).mp hmem
      rcases hx with hx | hx
      · exact hx.2 helige.1.2.1
      · exact hx.2 he
    constructor
    · intro hlt
      have hlt' : ((sortScan d p).pool.slots e).i_start <
          (sortScan d p).ephemerDate := by rw [hesp]; exact hlt
      refine ⟨?_, ?_, ?_⟩
      · simp only [vout_SortSubPictures, he, if_pos hlt']
        rw [SpuPool.set_slots_self]
        rfl
      · simp only [vout_SortSubPictures, he, if_pos hlt']
        exact henotmem
      · simp only [vout_SortSubPictures, he, if_pos hlt']
    · intro hlt
      have hlt' : ¬ ((sortScan d p).pool.slots e).i_start <
          (sortScan d p).ephemerDate := by rw [hesp]; exact hlt
      simp only [vout_SortSubPictures, he, if_neg hlt']

/-- Witness for C2 (amended) on the A(10), B(20), C(15) scenario at
display date 30: the linked DVD overlays are C and B, the cutoff 15 is
attained (by C) and bounds both start dates, and the retained candidate
A (start 10 < 15) is destroyed and excluded. -/
theorem C2_ephemer_cutoff_witness :
    (∃ j ∈ (sortScan 30 c1pool).subpicList,
      (c1pool.slots j).i_type = SpuType.dvd ∧
      (c1pool.slots j).i_start = (sortScan 30 c1pool).ephemerDate) ∧
    ((vout_SortSubPictures 30 c1pool).1.pool.slots 0).i_status =
      SpuStatus.destroyed ∧
    (0 : Nat) ∉ (vout_SortSubPictures 30 c1pool).2 := by
  have h := C2_ephemer_cutoff 30 c1pool (by decide)
  have h2 := (h.2 0 (by decide)).1 (by decide)
  exact ⟨(h.1 ⟨2, by decide, by decide⟩).1, h2.1, h2.2.1⟩

/-- C3 (amended): a ready DVD overlay whose stop date lies strictly
before the display date is destroyed by the very `SelectForDisplay` call
and is absent from the returned chain.  The eligibility window is
inclusive at both ends, and an eligible **non-ephemer** overlay (in
particular at `displayTimestamp = stopTime` or `= startTime`) is
returned in the chain with its status still ready; an eligible *ephemer*
overlay may nevertheless be destroyed by the ephemer-replacement rule
(see the counterexample). -/
theorem C3_expiry (d : Int) (p : SpuPool) (i : Nat) (hi : i < p.size) :
    (isExpired d (p.slots i) →
      i ∉ (vout_SortSubPictures d p).2 ∧
      ((vout_SortSubPictures d p).1.pool.slots i).i_status =
        SpuStatus.destroyed) ∧
    (eligDvd d (p.slots i) → (p.slots i).b_ephemer = false →
      i ∈ (vout_SortSubPictures d p).2 ∧
      ((vout_SortSubPictures d p).1.pool.slots i).i_status =
        SpuStatus.ready) := by
  have inv := scanInv_sortScan d p
  obtain ⟨hres, hpool⟩ := sortSub_result_cases d p
  constructor
  · intro hexp
    have hnmem : i ∉ (sortScan d p).subpicList := by
      intro hmem
      obtain ⟨_, hx⟩ := (inv.memList i).mp hmem
      rcases hx with hx | hx
      · exact hx.2 hexp.2.1
      · exact eligDvd_not_expired hx.1 hexp
    constructor
    · rcases hres with hres | ⟨e, he, hres⟩
      · rw [hres]; exact hnmem
      · rw [hres]
        intro hmem
        rcases List.mem_cons.mp hmem with rfl | hmem'
        · exact eligDvd_not_expired (inv.ephSome i he).2.1.1 hexp
        · exact hnmem hmem'
    · have hscan : ((sortScan d p).pool.slots i).i_status =
          SpuStatus.destroyed := by
        rw [inv.expDestroyed i hi hexp]
      rcases hpool i with hp | ⟨he, hp⟩
      · rw [hp]; exact hscan
      · exact absurd hexp (eligDvd_not_expired (inv.ephSome i he).2.1.1)
  · intro helig hbe
    have hne : (sortScan d p).ephemer ≠ some i := by
      intro he
      have := (inv.ephSome i he).2.1.2
      rw [hbe] at this
      cases this
    have hmem : i ∈ (sortScan d p).subpicList :=
      (inv.memList i).mpr ⟨hi, Or.inr ⟨helig, hne⟩⟩
    have hscan : (sortScan d p).pool.slots i = p.slots i :=
      inv.untouched i (fun hc => eligDvd_not_expired helig hc.2)
    constructor
    · rcases hres with hres | ⟨e, he, hres⟩
      · rw [hres]; exact hmem
      · rw [hres]; exact List.mem_cons_of_mem e hmem
    · rcases hpool i with hp | ⟨he, hp⟩
      · rw [hp, hscan]; exact helig.1
      · exact absurd he hne

/-- Pool for the C3 (amended) witness: slot 0 is an eligible non-ephemer
DVD overlay whose stop date equals the display date 10 (the inclusive
upper boundary), slot 1 is a ready DVD overlay already expired at that
date. -/
def c3wpool : SpuPool :=
  ⟨2, fun j => match j with
    | 0 => { i_status := .ready, i_type := .dvd, i_start := 5,
             i_stop := 10 }
    | 1 => { i_status := .ready, i_type := .dvd, i_start := 0,
             i_stop := 3 }
    | _ => default⟩

/-- Witness for C3 (amended) at display date 10: the expired slot 1 is
destroyed and absent from the chain, while the non-ephemer slot 0 —
displayed exactly at its stop date — is returned and stays ready. -/
theorem C3_expiry_witness :
    ((1 : Nat) ∉ (vout_SortSubPictures 10 c3wpool).2 ∧
     ((vout_SortSubPictures 10 c3wpool).1.pool.slots 1).i_status =
       SpuStatus.destroyed) ∧
    ((0 : Nat) ∈ (vout_SortSubPictures 10 c3wpool).2 ∧
     ((vout_SortSubPictures 10 c3wpool).1.pool.slots 0).i_status =
       SpuStatus.ready) := by
  exact ⟨(C3_expiry 10 c3wpool 1 (by decide)).1 (by decide),
    (C3_expiry 10 c3wpool 0 (by decide)).2 (by decide) (by decide)⟩
